import Mathlib

/-!
Verification of the galay-utils rate-limiting and MVCC core.

The definitions below are a shallow embedding, in Lean, of the sequential
semantics of the C++ classes in `ratelimiter/RateLimiter.hpp` (both the
lock-free and the mutex-guarded variants have the same sequential
behaviour) and `mvcc/Mvcc.hpp`.  Machine integers (`size_t`, `uint64_t`)
are modelled as unbounded integers reduced modulo `2^64` exactly where the
C++ code can wrap (unsigned addition, version-counter increment); guarded
unsigned subtractions never wrap and are modelled directly.
-/

namespace GalayUtils

/-- Modulus of `size_t` / `uint64_t` on the target platform. -/
def SIZE_T_MOD : Nat := 2 ^ 64

/-! ## CountingSemaphore

`CountingSemaphore` keeps a single `size_t m_count` (atomic in the
lock-free variant, mutex-guarded in the other); sequentially both variants
behave identically.  The count is modelled as an `Int` kept in
`[0, 2^64)`. -/

/-- State of a `CountingSemaphore`: the value of `m_count`. -/
structure SemState where
  count : Int
deriving Repr, DecidableEq

/-- Constructor `CountingSemaphore(size_t initial)`: `m_count = initial`.
Conversion of the argument to `size_t` reduces modulo `2^64`. -/
def semInit (initial : Nat) : SemState :=
  ⟨(initial : Int) % (SIZE_T_MOD : Int)⟩

/-- `tryAcquire(n)`: succeed and subtract `n` exactly when `m_count >= n`
(the CAS loop retries until the decrement applies or the count is seen
below `n`); otherwise fail and leave the count unchanged.  The guarded
subtraction never wraps. -/
def semTryAcquire (s : SemState) (n : Nat) : Bool × SemState :=
  if (n : Int) ≤ s.count then (true, ⟨s.count - (n : Int)⟩) else (false, s)

/-- `release(n)`: `m_count += n` (unsigned addition wraps modulo `2^64`). -/
def semRelease (s : SemState) (n : Nat) : SemState :=
  ⟨(s.count + (n : Int)) % (SIZE_T_MOD : Int)⟩

/-- `available()`: read of `m_count`. -/
def semAvailable (s : SemState) : Int := s.count

/-- One client operation on the semaphore. -/
inductive SemOp where
  | tryAcq (n : Nat)
  | release (n : Nat)
deriving Repr, DecidableEq

/-- Effect of one operation on the semaphore state. -/
def semStep (s : SemState) : SemOp → SemState
  | SemOp.tryAcq n => (semTryAcquire s n).2
  | SemOp.release n => semRelease s n

/-- Run a sequence of operations. -/
def semRuns (s : SemState) (ops : List SemOp) : SemState :=
  ops.foldl semStep s

/-- Run a sequence of operations, also accumulating the total amount of
successful acquires and the total released amount:
result is `(final state, acquired, released)`. -/
def semRunsAcc (s : SemState) : List SemOp → SemState × Nat × Nat
  | [] => (s, 0, 0)
  | SemOp.tryAcq n :: rest =>
    let r := semTryAcquire s n
    let t := semRunsAcc r.2 rest
    (t.1, (if r.1 then n else 0) + t.2.1, t.2.2)
  | SemOp.release n :: rest =>
    let t := semRunsAcc (semRelease s n) rest
    (t.1, t.2.1, n + t.2.2)

/-- Sum of all released amounts in a sequence of operations. -/
def sumReleases : List SemOp → Nat
  | [] => 0
  | SemOp.tryAcq _ :: rest => sumReleases rest
  | SemOp.release n :: rest => n + sumReleases rest

/-! ## TokenBucketLimiter

The lock-free `TokenBucketLimiter` stores the token count as an
`int64_t m_tokens` scaled by `kPrecision = 1000000`.  `refill()` computes
`newTokens = elapsed * rate * kPrecision` from the monotonic clock and
adds it, capped at `capacity * kPrecision`; `tryAcquire(n)` first refills
and then CAS-subtracts `n * kPrecision` when enough tokens are present.
Time and rate enter the state machine only through the computed
`newTokens` amount, so a refill step is parameterised by it. -/

/-- Fixed-point scale factor `kPrecision`. -/
def kPrecision : Int := 1000000

/-- State of a `TokenBucketLimiter`: the scaled token count `m_tokens`. -/
structure TBState where
  tokens : Int
deriving Repr, DecidableEq

/-- Constructor: `m_tokens = capacity * kPrecision` (the bucket starts
full). -/
def tbInit (capacity : Nat) : TBState :=
  ⟨(capacity : Int) * kPrecision⟩

/-- `refill()` (the path where elapsed time is positive and the timestamp
CAS wins): add `newTokens` and cap at `capacity * kPrecision`. -/
def tbRefill (capacity : Nat) (s : TBState) (newTokens : Int) : TBState :=
  ⟨min (s.tokens + newTokens) ((capacity : Int) * kPrecision)⟩

/-- CAS-decrement part of `tryAcquire(tokens)`: succeed and subtract
`tokens * kPrecision` exactly when enough tokens are available. -/
def tbTryAcquireStep (s : TBState) (tokens : Nat) : Bool × TBState :=
  let needed : Int := (tokens : Int) * kPrecision
  if needed ≤ s.tokens then (true, ⟨s.tokens - needed⟩) else (false, s)

/-- One step of the token-bucket state machine: an elapsed-time refill
crediting `newTokens` scaled tokens, or the decrement part of a
`tryAcquire` call (each source `tryAcquire` call is a refill step followed
by a decrement step). -/
inductive TBOp where
  | refill (newTokens : Int)
  | tryAcq (tokens : Nat)

/-- Effect of one token-bucket step. -/
def tbStep (capacity : Nat) (s : TBState) : TBOp → TBState
  | TBOp.refill k => tbRefill capacity s k
  | TBOp.tryAcq n => (tbTryAcquireStep s n).2

/-- Run a sequence of token-bucket steps. -/
def tbRuns (capacity : Nat) (s : TBState) (ops : List TBOp) : TBState :=
  ops.foldl (tbStep capacity) s

/-- An elapsed-time refill credits a nonnegative amount of scaled tokens
(elapsed time is positive on the refill path and the configured rate is
nonnegative). -/
def TBOpNonneg : TBOp → Prop
  | TBOp.refill k => 0 ≤ k
  | TBOp.tryAcq _ => True

instance (op : TBOp) : Decidable (TBOpNonneg op) :=
  match op with
  | TBOp.refill k => inferInstanceAs (Decidable (0 ≤ k))
  | TBOp.tryAcq _ => inferInstanceAs (Decidable True)

/-! ## SlidingWindowLimiter

`SlidingWindowLimiter` keeps `m_maxRequests`, the window size in
nanoseconds, the window start timestamp and an atomic request counter.
`tryAcquire()` resets the window when `now - windowStart >= windowSizeNs`
and then increments the counter if it is below `m_maxRequests`.
Timestamps are nanosecond counts of the monotonic clock, modelled as
`Int`. -/

/-- State of a `SlidingWindowLimiter`. -/
structure SWState where
  maxRequests : Nat
  windowSizeNs : Int
  windowStart : Int
  count : Nat
deriving Repr, DecidableEq

/-- Constructor at current time `now`: window starts now, counter zero. -/
def swInit (maxRequests : Nat) (windowSizeNs : Int) (now : Int) : SWState :=
  ⟨maxRequests, windowSizeNs, now, 0⟩

/-- `tryAcquire()` called at time `now`: reset the window when it has
elapsed, then CAS-increment the counter while it is below the limit. -/
def swTryAcquire (s : SWState) (now : Int) : Bool × SWState :=
  let s1 := if s.windowSizeNs ≤ now - s.windowStart then
      { s with windowStart := now, count := 0 }
    else s
  if s1.count < s1.maxRequests then
    (true, { s1 with count := s1.count + 1 })
  else
    (false, s1)

/-! ## Mvcc

`Mvcc<T>` keeps an atomic `uint64_t m_currentVersion` (starting at 0) and
an ordered `std::map` from version number to
`VersionedValue {version, unique_ptr<T> value, bool deleted}`.  A null
`unique_ptr` is modelled as `none`.  The version-counter increment
`++m_currentVersion` wraps modulo `2^64`.  The map is modelled as an
association list with unique keys; the predecessor lookup
(`upper_bound` then a step back) returns the entry with the greatest key
at most the requested version. -/

/-- Modulus of the `uint64_t` version counter. -/
def UINT64_MOD : Nat := 2 ^ 64

/-- A `VersionedValue<T>` map entry. -/
structure VEntry (T : Type) where
  version : Nat
  value : Option T
  deleted : Bool
deriving Repr, DecidableEq

/-- State of an `Mvcc<T>` store. -/
structure MvccState (T : Type) where
  currentVersion : Nat
  versions : List (Nat × VEntry T)
deriving Repr, DecidableEq

/-- Constructor `Mvcc()`: version counter 0, empty map. -/
def mvccInit (T : Type) : MvccState T := ⟨0, []⟩

/-- `m_versions[k] = e`: insert or overwrite the entry for key `k`. -/
def mapInsert {T : Type} : List (Nat × VEntry T) → Nat → VEntry T →
    List (Nat × VEntry T)
  | [], k, e => [(k, e)]
  | p :: rest, k, e =>
    if p.1 = k then (k, e) :: rest else p :: mapInsert rest k e

/-- Combine one map entry with the best predecessor candidate found so
far: keep whichever has the greater key among those with key at most
`v`. -/
def predCombine {T : Type} (p : Nat × VEntry T) (v : Nat) :
    Option (Nat × VEntry T) → Option (Nat × VEntry T)
  | none => if p.1 ≤ v then some p else none
  | some q => if p.1 ≤ v ∧ q.1 ≤ p.1 then some p else some q

/-- Predecessor lookup in the ordered map: the entry with the greatest
key at most `v` (`upper_bound(v)` followed by a step back), or `none`
when every key exceeds `v`. -/
def predEntry {T : Type} : List (Nat × VEntry T) → Nat →
    Option (Nat × VEntry T)
  | [], _ => none
  | p :: rest, v => predCombine p v (predEntry rest v)

/-- Greatest-key entry of the map (`m_versions.rbegin()`), or `none` when
the map is empty. -/
def maxEntry {T : Type} : List (Nat × VEntry T) → Option (Nat × VEntry T)
  | [] => none
  | p :: rest =>
    match maxEntry rest with
    | none => some p
    | some q => if q.1 ≤ p.1 then some p else some q

/-- `getValue(version)`: predecessor lookup; `nullptr` when no entry has
a key at most `version` or the found entry is a deletion marker, the
stored value pointer otherwise. -/
def getValue {T : Type} (s : MvccState T) (version : Nat) : Option T :=
  match predEntry s.versions version with
  | none => none
  | some p => if p.2.deleted then none else p.2.value

/-- `getCurrentValue()`. -/
def getCurrentValue {T : Type} (s : MvccState T) : Option T :=
  getValue s s.currentVersion

/-- The version allocated by `++m_currentVersion` (wraps modulo `2^64`). -/
def nextVersion {T : Type} (s : MvccState T) : Nat :=
  (s.currentVersion + 1) % UINT64_MOD

/-- `putValue(value)`: allocate the next version, store the value under
it with `deleted = false`, return the new version. -/
def putValue {T : Type} (s : MvccState T) (value : Option T) :
    Nat × MvccState T :=
  let newVersion := nextVersion s
  (newVersion,
    ⟨newVersion, mapInsert s.versions newVersion ⟨newVersion, value, false⟩⟩)

/-- `updateValue(updateFn)`: read the greatest-key entry (null when the
map is empty or that entry is deleted), apply `updateFn`, store the
result under a freshly allocated version. -/
def updateValue {T : Type} (s : MvccState T)
    (updateFn : Option T → Option T) : Nat × MvccState T :=
  let current : Option T :=
    match maxEntry s.versions with
    | none => none
    | some p => if p.2.deleted then none else p.2.value
  let newValue := updateFn current
  let newVersion := nextVersion s
  (newVersion,
    ⟨newVersion,
      mapInsert s.versions newVersion ⟨newVersion, newValue, false⟩⟩)

/-- `compareAndSwap(expectedVersion, newValue)`: return the sentinel 0
and change nothing when the current version differs from
`expectedVersion`; otherwise allocate the next version, store the new
value under it and return it. -/
def compareAndSwap {T : Type} (s : MvccState T) (expectedVersion : Nat)
    (newValue : Option T) : Nat × MvccState T :=
  if s.currentVersion ≠ expectedVersion then (0, s)
  else
    let newVersion := nextVersion s
    (newVersion,
      ⟨newVersion,
        mapInsert s.versions newVersion ⟨newVersion, newValue, false⟩⟩)

/-- `deleteValue()`: allocate the next version and store a deletion
marker (null value, `deleted = true`) under it. -/
def deleteValue {T : Type} (s : MvccState T) : Nat × MvccState T :=
  let newVersion := nextVersion s
  (newVersion,
    ⟨newVersion, mapInsert s.versions newVersion ⟨newVersion, none, true⟩⟩)

/-- `clear()`: erase the map and reset the version counter to 0. -/
def mvccClear {T : Type} (_ : MvccState T) : MvccState T := ⟨0, []⟩

/-- `Snapshot`: an immutable capture of a version number. -/
structure Snapshot where
  version : Nat
deriving Repr, DecidableEq

/-- `Snapshot::read(mvcc)`: delegate to `getValue` at the captured
version. -/
def Snapshot.readFrom {T : Type} (sn : Snapshot) (s : MvccState T) :
    Option T :=
  getValue s sn.version

/-- `Transaction<T>`: start version, staged pending value, committed
flag. -/
structure Txn (T : Type) where
  startVersion : Nat
  pendingValue : Option T
  committed : Bool
deriving Repr, DecidableEq

/-- `Transaction(mvcc)`: capture the store's current version. -/
def txnBegin {T : Type} (s : MvccState T) : Txn T :=
  ⟨s.currentVersion, none, false⟩

/-- `Transaction::read()`: `getValue` at the start version. -/
def txnRead {T : Type} (t : Txn T) (s : MvccState T) : Option T :=
  getValue s t.startVersion

/-- `Transaction::write(value)`: stage a pending value. -/
def txnWrite {T : Type} (t : Txn T) (value : T) : Txn T :=
  { t with pendingValue := some value }

/-- `Transaction::commit()`: fail when already committed or nothing is
pending; otherwise `compareAndSwap(startVersion, pendingValue)` (the
pending value is moved out either way), succeeding exactly when the CAS
returns a nonzero version. -/
def txnCommit {T : Type} (t : Txn T) (s : MvccState T) :
    Bool × Txn T × MvccState T :=
  if t.committed then (false, t, s)
  else
    match t.pendingValue with
    | none => (false, t, s)
    | some v =>
      let r := compareAndSwap s t.startVersion (some v)
      if r.1 = 0 then (false, ⟨t.startVersion, none, false⟩, r.2)
      else (true, ⟨t.startVersion, none, true⟩, r.2)

/-- Well-formedness of a store state, maintained by every reachable
state: the `uint64_t` counter value is below `2^64`, every map key is at
most the current version, and map keys are unique. -/
def WF {T : Type} (s : MvccState T) : Prop :=
  s.currentVersion < UINT64_MOD ∧
  (∀ p ∈ s.versions, p.1 ≤ s.currentVersion) ∧
  (s.versions.map Prod.fst).Nodup

instance {T : Type} (s : MvccState T) : Decidable (WF s) :=
  inferInstanceAs (Decidable (_ ∧ _ ∧ _))

/-- Follows the spec words: `p` is the stored entry with the greatest
version at most `v`. -/
def IsPredecessorEntry {T : Type} (vs : List (Nat × VEntry T)) (v : Nat)
    (p : Nat × VEntry T) : Prop :=
  p ∈ vs ∧ p.1 ≤ v ∧ ∀ q ∈ vs, q.1 ≤ v → q.1 ≤ p.1

instance {T : Type} [DecidableEq T] (vs : List (Nat × VEntry T)) (v : Nat)
    (p : Nat × VEntry T) : Decidable (IsPredecessorEntry vs v p) :=
  inferInstanceAs (Decidable (_ ∧ _ ∧ _))

/-- Follows the spec words of the monotonicity property: the latest
non-deleted value stored at or before `v`, that is the value of the
greatest-key non-deleted entry with key at most `v`. -/
def latestNonDeleted {T : Type} (vs : List (Nat × VEntry T)) (v : Nat) :
    Option T :=
  match predEntry (vs.filter (fun p => !p.2.deleted)) v with
  | none => none
  | some p => p.2.value

/-! ## Semaphore lemmas -/

theorem semStep_nonneg (s : SemState) (op : SemOp) (h : 0 ≤ s.count) :
    0 ≤ (semStep s op).count := by
  cases op with
  | tryAcq n =>
    by_cases hc : (n : Int) ≤ s.count
    · simp only [semStep, semTryAcquire, if_pos hc]
      show 0 ≤ s.count - (n : Int)
      omega
    · simp only [semStep, semTryAcquire, if_neg hc]
      exact h
  | release n =>
    show 0 ≤ (s.count + (n : Int)) % (SIZE_T_MOD : Int)
    exact Int.emod_nonneg _ (by norm_num [SIZE_T_MOD])

theorem semRuns_nonneg (ops : List SemOp) (s : SemState) (h : 0 ≤ s.count) :
    0 ≤ (semRuns s ops).count := by
  induction ops generalizing s with
  | nil => exact h
  | cons op rest ih => exact ih (semStep s op) (semStep_nonneg s op h)

theorem semInit_nonneg (initial : Nat) : 0 ≤ (semInit initial).count :=
  Int.emod_nonneg _ (by norm_num [SIZE_T_MOD])

/-- C1: `tryAcquire(n)` on a semaphore whose count is `c` returns true and
leaves the count equal to `c - n` when `c ≥ n`, and otherwise returns
false and leaves the count unchanged; moreover no sequence of `tryAcquire`
and `release` calls ever drives `available()` negative. -/
theorem C1_tryAcquire_correct (s : SemState) (n : Nat) (initial : Nat)
    (ops : List SemOp) :
    ((n : Int) ≤ s.count →
        semTryAcquire s n = (true, ⟨s.count - (n : Int)⟩)) ∧
    (s.count < (n : Int) → semTryAcquire s n = (false, s)) ∧
    0 ≤ semAvailable (semRuns (semInit initial) ops) := by
  refine ⟨fun hc => ?_, fun hc => ?_, ?_⟩
  · simp [semTryAcquire, hc]
  · simp [semTryAcquire, not_le.mpr hc]
  · exact semRuns_nonneg ops (semInit initial) (semInit_nonneg initial)

/-- Witness for C1 at the values of the source test
(`CountingSemaphore sem(3)`). -/
theorem C1_tryAcquire_correct_witness :
    semTryAcquire ⟨3⟩ 2 = (true, ⟨1⟩) ∧
    semTryAcquire ⟨1⟩ 2 = (false, ⟨1⟩) ∧
    0 ≤ semAvailable (semRuns (semInit 3) [SemOp.tryAcq 2, SemOp.release 2]) :=
  ⟨(C1_tryAcquire_correct ⟨3⟩ 2 3 []).1 (by decide),
   (C1_tryAcquire_correct ⟨1⟩ 2 3 []).2.1 (by decide),
   (C1_tryAcquire_correct ⟨0⟩ 0 3 [SemOp.tryAcq 2, SemOp.release 2]).2.2⟩

theorem semRunsAcc_invariant (ops : List SemOp) : ∀ s : SemState,
    0 ≤ s.count →
    s.count + (sumReleases ops : Int) < (SIZE_T_MOD : Int) →
    (semRunsAcc s ops).1.count + ((semRunsAcc s ops).2.1 : Int)
        = s.count + ((semRunsAcc s ops).2.2 : Int) ∧
      0 ≤ (semRunsAcc s ops).1.count := by
  induction ops with
  | nil =>
    intro s h0 _
    simpa [semRunsAcc] using h0
  | cons op rest ih =>
    intro s h0 hov
    cases op with
    | tryAcq n =>
      have hsum : sumReleases (SemOp.tryAcq n :: rest) = sumReleases rest :=
        rfl
      rw [hsum] at hov
      by_cases hc : (n : Int) ≤ s.count
      · have hrw : semTryAcquire s n = (true, ⟨s.count - (n : Int)⟩) := by
          simp [semTryAcquire, hc]
        have ih2 := ih ⟨s.count - (n : Int)⟩ (by show 0 ≤ s.count - (n : Int); omega)
          (by show s.count - (n : Int) + (sumReleases rest : Int) < _; omega)
        simp only [semRunsAcc, hrw, if_true] at *
        obtain ⟨e1, e2⟩ := ih2
        refine ⟨?_, e2⟩
        push_cast
        -- casts in e1 already normalised
        omega
      · have hrw : semTryAcquire s n = (false, s) := by
          simp [semTryAcquire, not_le.mp (by exact hc), hc]
        have ih2 := ih s h0 hov
        simp only [semRunsAcc, hrw, if_false] at *
        obtain ⟨e1, e2⟩ := ih2
        refine ⟨?_, e2⟩
        push_cast
        -- casts in e1 already normalised
        omega
    | release n =>
      have hsum : sumReleases (SemOp.release n :: rest)
          = n + sumReleases rest := rfl
      rw [hsum] at hov
      push_cast at hov
      have hmod : semRelease s n = ⟨s.count + (n : Int)⟩ := by
        show (⟨(s.count + (n : Int)) % (SIZE_T_MOD : Int)⟩ : SemState) = _
        congr 1
        refine Int.emod_eq_of_lt (by omega) (by omega)
      have ih2 := ih ⟨s.count + (n : Int)⟩
        (by show 0 ≤ s.count + (n : Int); omega)
        (by show s.count + (n : Int) + (sumReleases rest : Int) < _; omega)
      simp only [semRunsAcc, hmod] at *
      obtain ⟨e1, e2⟩ := ih2
      refine ⟨?_, e2⟩
      push_cast
      -- casts in e1 already normalised
      omega

/-- C7: for every semaphore created with initial count `I` and every
sequence of acquire and release operations, `available()` afterwards
equals `I` plus the sum of all released amounts minus the sum of the
amounts of all successful acquires (stated over the exact arithmetic;
the `size_t` counter does not wrap as long as `I` plus all releases stays
below `2^64`). -/
theorem C7_conservation (initial : Nat) (ops : List SemOp)
    (hov : (initial : Int) + (sumReleases ops : Int) < (SIZE_T_MOD : Int)) :
    semAvailable (semRunsAcc (semInit initial) ops).1
      = (initial : Int) + ((semRunsAcc (semInit initial) ops).2.2 : Int)
        - ((semRunsAcc (semInit initial) ops).2.1 : Int) := by
  have hinit : (semInit initial).count = (initial : Int) := by
    show (initial : Int) % (SIZE_T_MOD : Int) = (initial : Int)
    exact Int.emod_eq_of_lt (by positivity) (by omega)
  have h := semRunsAcc_invariant ops (semInit initial)
    (semInit_nonneg initial) (by rw [hinit]; exact hov)
  rw [hinit] at h
  show (semRunsAcc (semInit initial) ops).1.count = _
  omega

/-- Witness for C7 at the source test scenario: `sem(3)`,
`tryAcquire(2)`, `release(2)`. -/
theorem C7_conservation_witness :
    semAvailable (semRunsAcc (semInit 3) [SemOp.tryAcq 2, SemOp.release 2]).1
      = (3 : Int)
        + ((semRunsAcc (semInit 3) [SemOp.tryAcq 2, SemOp.release 2]).2.2 : Int)
        - ((semRunsAcc (semInit 3) [SemOp.tryAcq 2, SemOp.release 2]).2.1 : Int) :=
  C7_conservation 3 [SemOp.tryAcq 2, SemOp.release 2] (by decide)

/-! ## Token bucket lemmas -/

theorem tbStep_bounds (capacity : Nat) (s : TBState) (op : TBOp)
    (hop : TBOpNonneg op) (h0 : 0 ≤ s.tokens)
    (h1 : s.tokens ≤ (capacity : Int) * kPrecision) :
    0 ≤ (tbStep capacity s op).tokens ∧
      (tbStep capacity s op).tokens ≤ (capacity : Int) * kPrecision := by
  cases op with
  | refill k =>
    have hk : 0 ≤ k := hop
    constructor
    · show 0 ≤ min (s.tokens + k) ((capacity : Int) * kPrecision)
      have hcap : (0 : Int) ≤ (capacity : Int) * kPrecision :=
        mul_nonneg (Int.natCast_nonneg _) (by norm_num [kPrecision])
      omega
    · show min (s.tokens + k) ((capacity : Int) * kPrecision) ≤ _
      omega
  | tryAcq n =>
    by_cases hc : (n : Int) * kPrecision ≤ s.tokens
    · simp only [tbStep, tbTryAcquireStep, if_pos hc]
      refine ⟨?_, ?_⟩
      · show 0 ≤ s.tokens - (n : Int) * kPrecision
        omega
      · show s.tokens - (n : Int) * kPrecision ≤ _
        have : (0 : Int) ≤ (n : Int) * kPrecision :=
          mul_nonneg (Int.natCast_nonneg _) (by norm_num [kPrecision])
        omega
    · simp only [tbStep, tbTryAcquireStep, if_neg hc]
      exact ⟨h0, h1⟩

theorem tbRuns_bounds (capacity : Nat) (ops : List TBOp) : ∀ s : TBState,
    (∀ op ∈ ops, TBOpNonneg op) → 0 ≤ s.tokens →
    s.tokens ≤ (capacity : Int) * kPrecision →
    0 ≤ (tbRuns capacity s ops).tokens ∧
      (tbRuns capacity s ops).tokens ≤ (capacity : Int) * kPrecision := by
  induction ops with
  | nil => exact fun s _ h0 h1 => ⟨h0, h1⟩
  | cons op rest ih =>
    intro s hops h0 h1
    have hstep := tbStep_bounds capacity s op (hops op (by simp)) h0 h1
    exact ih (tbStep capacity s op) (fun o ho => hops o (by simp [ho]))
      hstep.1 hstep.2

/-- C5: a `TokenBucketLimiter(rate, capacity)` starts with a full bucket
(`tokens = capacity * kPrecision`), and for every sequence of
elapsed-time refills (each crediting a nonnegative scaled amount) and
`tryAcquire` calls, the scaled token count stays within
`[0, capacity * kPrecision]`, so `availableTokens()` never exceeds
`capacity`. -/
theorem C5_token_bucket_bound (capacity : Nat) (ops : List TBOp)
    (hops : ∀ op ∈ ops, TBOpNonneg op) :
    (tbInit capacity).tokens = (capacity : Int) * kPrecision ∧
    0 ≤ (tbRuns capacity (tbInit capacity) ops).tokens ∧
    (tbRuns capacity (tbInit capacity) ops).tokens
      ≤ (capacity : Int) * kPrecision := by
  have h := tbRuns_bounds capacity ops (tbInit capacity) hops
    (mul_nonneg (Int.natCast_nonneg _) (by norm_num [kPrecision]))
    (le_refl _)
  exact ⟨rfl, h.1, h.2⟩

/-- Witness for C5 at the source test scenario:
`TokenBucketLimiter(100, 10)`, one `tryAcquire(5)` and a refill. -/
theorem C5_token_bucket_bound_witness :
    (tbInit 10).tokens = (10 : Int) * kPrecision ∧
    0 ≤ (tbRuns 10 (tbInit 10) [TBOp.tryAcq 5, TBOp.refill 3]).tokens ∧
    (tbRuns 10 (tbInit 10) [TBOp.tryAcq 5, TBOp.refill 3]).tokens
      ≤ (10 : Int) * kPrecision :=
  C5_token_bucket_bound 10 [TBOp.tryAcq 5, TBOp.refill 3] (by decide)

/-! ## Sliding window lemmas -/

theorem swTryAcquire_noReset_ok (s : SWState) (now : Int)
    (hw : ¬ s.windowSizeNs ≤ now - s.windowStart)
    (hc : s.count < s.maxRequests) :
    swTryAcquire s now = (true, { s with count := s.count + 1 }) := by
  simp only [swTryAcquire, if_neg hw, if_pos hc]

theorem swTryAcquire_noReset_full (s : SWState) (now : Int)
    (hw : ¬ s.windowSizeNs ≤ now - s.windowStart)
    (hc : ¬ s.count < s.maxRequests) :
    swTryAcquire s now = (false, s) := by
  simp only [swTryAcquire, if_neg hw, if_neg hc]

theorem swTryAcquire_reset_ok (s : SWState) (now : Int)
    (hw : s.windowSizeNs ≤ now - s.windowStart)
    (hc : 0 < s.maxRequests) :
    swTryAcquire s now
      = (true, { s with windowStart := now, count := 1 }) := by
  simp only [swTryAcquire, if_pos hw]
  rw [if_pos (show ({ s with windowStart := now, count := 0 } : SWState).count
      < ({ s with windowStart := now, count := 0 } : SWState).maxRequests from hc)]

/-- C6: a `SlidingWindowLimiter(maxRequests = 5, windowSize = 100ms)`
created at time `t0` admits exactly 5 consecutive `tryAcquire()` calls
within the window, rejects the 6th, and admits a call made 150ms later
(the scenario of the source test). -/
theorem C6_sliding_window_scenario (t0 : Int) :
    (swTryAcquire (swInit 5 100000000 t0) t0).1 = true ∧
    (swTryAcquire (swTryAcquire (swInit 5 100000000 t0) t0).2 t0).1 = true ∧
    (swTryAcquire (swTryAcquire (swTryAcquire
        (swInit 5 100000000 t0) t0).2 t0).2 t0).1 = true ∧
    (swTryAcquire (swTryAcquire (swTryAcquire (swTryAcquire
        (swInit 5 100000000 t0) t0).2 t0).2 t0).2 t0).1 = true ∧
    (swTryAcquire (swTryAcquire (swTryAcquire (swTryAcquire (swTryAcquire
        (swInit 5 100000000 t0) t0).2 t0).2 t0).2 t0).2 t0).1 = true ∧
    (swTryAcquire (swTryAcquire (swTryAcquire (swTryAcquire (swTryAcquire
        (swTryAcquire (swInit 5 100000000 t0) t0).2 t0).2 t0).2 t0).2
        t0).2 t0).1 = false ∧
    (swTryAcquire (swTryAcquire (swTryAcquire (swTryAcquire (swTryAcquire
        (swTryAcquire (swTryAcquire (swInit 5 100000000 t0) t0).2 t0).2
        t0).2 t0).2 t0).2 t0).2 (t0 + 150000000)).1 = true := by
  have hw : ¬ ((100000000 : Int) ≤ t0 - t0) := by omega
  have hstep : ∀ c : Nat, c < 5 →
      swTryAcquire ⟨5, 100000000, t0, c⟩ t0 =
        (true, ⟨5, 100000000, t0, c + 1⟩) := fun c hc =>
    swTryAcquire_noReset_ok ⟨5, 100000000, t0, c⟩ t0 hw hc
  have h0 : swInit 5 100000000 t0 = ⟨5, 100000000, t0, 0⟩ := rfl
  have h6 : swTryAcquire ⟨5, 100000000, t0, 5⟩ t0 =
      (false, ⟨5, 100000000, t0, 5⟩) :=
    swTryAcquire_noReset_full ⟨5, 100000000, t0, 5⟩ t0 hw
      (show ¬ (5 : Nat) < 5 by omega)
  have h7 : swTryAcquire ⟨5, 100000000, t0, 5⟩ (t0 + 150000000) =
      (true, ⟨5, 100000000, t0 + 150000000, 1⟩) :=
    swTryAcquire_reset_ok ⟨5, 100000000, t0, 5⟩ (t0 + 150000000)
      (by show (100000000 : Int) ≤ t0 + 150000000 - t0; omega)
      (show (0 : Nat) < 5 by omega)
  simp only [h0, hstep 0 (by omega), hstep 1 (by omega), hstep 2 (by omega),
    hstep 3 (by omega), hstep 4 (by omega), h6, h7]
  simp

/-! ## Ordered-map lemmas for the MVCC store -/

theorem mapInsert_of_not_mem {T : Type} (vs : List (Nat × VEntry T))
    (k : Nat) (e : VEntry T) (h : ∀ p ∈ vs, p.1 ≠ k) :
    mapInsert vs k e = vs ++ [(k, e)] := by
  induction vs with
  | nil => rfl
  | cons p rest ih =>
    have hp : p.1 ≠ k := h p (by simp)
    simp only [mapInsert, if_neg hp, List.cons_append, List.cons.injEq,
      true_and]
    exact ih (fun q hq => h q (by simp [hq]))

theorem predEntry_nil {T : Type} (v : Nat) :
    predEntry ([] : List (Nat × VEntry T)) v = none := rfl

theorem predEntry_cons {T : Type} (a : Nat × VEntry T)
    (rest : List (Nat × VEntry T)) (v : Nat) :
    predEntry (a :: rest) v = predCombine a v (predEntry rest v) := rfl

theorem predEntry_mem {T : Type} (vs : List (Nat × VEntry T)) (v : Nat) :
    ∀ p, predEntry vs v = some p → p ∈ vs ∧ p.1 ≤ v := by
  induction vs with
  | nil => intro p h; simp [predEntry] at h
  | cons a rest ih =>
    intro p h
    rw [predEntry_cons] at h
    cases hrest : predEntry rest v with
    | none =>
      rw [hrest] at h
      simp only [predCombine] at h
      by_cases ha : a.1 ≤ v
      · rw [if_pos ha] at h
        simp only [Option.some.injEq] at h
        subst h
        exact ⟨List.mem_cons_self a rest, ha⟩
      · rw [if_neg ha] at h
        simp at h
    | some q =>
      rw [hrest] at h
      simp only [predCombine] at h
      by_cases hcond : a.1 ≤ v ∧ q.1 ≤ a.1
      · rw [if_pos hcond] at h
        simp only [Option.some.injEq] at h
        subst h
        exact ⟨List.mem_cons_self a rest, hcond.1⟩
      · rw [if_neg hcond] at h
        simp only [Option.some.injEq] at h
        subst h
        obtain ⟨hm, hle⟩ := ih q hrest
        exact ⟨List.mem_cons_of_mem a hm, hle⟩

theorem predEntry_eq_none {T : Type} (vs : List (Nat × VEntry T)) (v : Nat)
    (h : predEntry vs v = none) : ∀ p ∈ vs, ¬ p.1 ≤ v := by
  induction vs with
  | nil => simp
  | cons a rest ih =>
    rw [predEntry_cons] at h
    cases hrest : predEntry rest v with
    | none =>
      rw [hrest] at h
      simp only [predCombine] at h
      by_cases ha : a.1 ≤ v
      · rw [if_pos ha] at h; simp at h
      · rw [if_neg ha] at h
        intro p hp
        rcases List.mem_cons.mp hp with rfl | hp2
        · exact ha
        · exact ih hrest p hp2
    | some q =>
      rw [hrest] at h
      simp only [predCombine] at h
      by_cases hcond : a.1 ≤ v ∧ q.1 ≤ a.1
      · rw [if_pos hcond] at h; simp at h
      · rw [if_neg hcond] at h; simp at h

theorem predEntry_isSome_of_mem {T : Type} (vs : List (Nat × VEntry T))
    (v : Nat) (p : Nat × VEntry T) (hm : p ∈ vs) (hle : p.1 ≤ v) :
    ∃ q, predEntry vs v = some q := by
  induction vs with
  | nil => simp at hm
  | cons a rest ih =>
    rw [predEntry_cons]
    cases hrest : predEntry rest v with
    | none =>
      simp only [predCombine]
      rcases List.mem_cons.mp hm with rfl | hm2
      · exact ⟨p, by rw [if_pos hle]⟩
      · exact absurd hle (predEntry_eq_none rest v hrest p hm2)
    | some q =>
      simp only [predCombine]
      by_cases hcond : a.1 ≤ v ∧ q.1 ≤ a.1
      · exact ⟨a, by rw [if_pos hcond]⟩
      · exact ⟨q, by rw [if_neg hcond]⟩

theorem predEntry_max {T : Type} (vs : List (Nat × VEntry T)) (v : Nat)
    (r : Nat × VEntry T) (h : predEntry vs v = some r) :
    ∀ p ∈ vs, p.1 ≤ v → p.1 ≤ r.1 := by
  induction vs generalizing r with
  | nil => simp
  | cons a rest ih =>
    rw [predEntry_cons] at h
    intro p hp hpv
    cases hrest : predEntry rest v with
    | none =>
      rw [hrest] at h
      simp only [predCombine] at h
      by_cases ha : a.1 ≤ v
      · rw [if_pos ha] at h
        simp only [Option.some.injEq] at h
        subst h
        rcases List.mem_cons.mp hp with rfl | hp2
        · exact le_refl _
        · exact absurd hpv (predEntry_eq_none rest v hrest p hp2)
      · rw [if_neg ha] at h; simp at h
    | some q =>
      rw [hrest] at h
      simp only [predCombine] at h
      by_cases hcond : a.1 ≤ v ∧ q.1 ≤ a.1
      · rw [if_pos hcond] at h
        simp only [Option.some.injEq] at h
        subst h
        rcases List.mem_cons.mp hp with rfl | hp2
        · exact le_refl _
        · exact le_trans (ih q hrest p hp2 hpv) hcond.2
      · rw [if_neg hcond] at h
        simp only [Option.some.injEq] at h
        subst h
        rcases List.mem_cons.mp hp with rfl | hp2
        · have h2 : ¬ q.1 ≤ p.1 := fun hq => hcond ⟨hpv, hq⟩
          omega
        · exact ih q hrest p hp2 hpv

theorem predEntry_append_gt {T : Type} (vs : List (Nat × VEntry T))
    (k : Nat) (e : VEntry T) (v : Nat) (hk : ∀ p ∈ vs, p.1 < k)
    (hv : k ≤ v) : predEntry (vs ++ [(k, e)]) v = some (k, e) := by
  induction vs with
  | nil =>
    rw [List.nil_append, predEntry_cons, predEntry_nil]
    simp only [predCombine]
    rw [if_pos (show ((k, e) : Nat × VEntry T).1 ≤ v from hv)]
  | cons a rest ih =>
    have ha : a.1 < k := hk a (by simp)
    rw [List.cons_append, predEntry_cons,
      ih (fun p hp => hk p (by simp [hp]))]
    simp only [predCombine]
    rw [if_neg (show ¬ (a.1 ≤ v ∧ ((k, e) : Nat × VEntry T).1 ≤ a.1) from
      fun hc => absurd hc.2 (by omega))]

theorem predEntry_append_lt {T : Type} (vs : List (Nat × VEntry T))
    (k : Nat) (e : VEntry T) (v : Nat) (hv : v < k) :
    predEntry (vs ++ [(k, e)]) v = predEntry vs v := by
  induction vs with
  | nil =>
    rw [List.nil_append, predEntry_cons, predEntry_nil]
    simp only [predCombine]
    rw [if_neg (show ¬ ((k, e) : Nat × VEntry T).1 ≤ v from by omega)]
  | cons a rest ih =>
    rw [List.cons_append, predEntry_cons, predEntry_cons, ih]

theorem predEntry_high {T : Type} (vs : List (Nat × VEntry T)) (B v : Nat)
    (hB : ∀ p ∈ vs, p.1 ≤ B) (hv : B ≤ v) :
    predEntry vs v = predEntry vs B := by
  induction vs with
  | nil => rfl
  | cons a rest ih =>
    have ha : a.1 ≤ B := hB a (by simp)
    rw [predEntry_cons, predEntry_cons, ih (fun p hp => hB p (by simp [hp]))]
    cases hrest : predEntry rest B with
    | none =>
      simp only [predCombine]
      rw [if_pos (show a.1 ≤ v by omega), if_pos ha]
    | some q =>
      simp only [predCombine]
      by_cases hq : q.1 ≤ a.1
      · rw [if_pos (And.intro (show a.1 ≤ v by omega) hq),
          if_pos (And.intro ha hq)]
      · rw [if_neg (show ¬ (a.1 ≤ v ∧ q.1 ≤ a.1) from fun hc => hq hc.2),
          if_neg (show ¬ (a.1 ≤ B ∧ q.1 ≤ a.1) from fun hc => hq hc.2)]

theorem nodupKeys_eq {T : Type} :
    ∀ vs : List (Nat × VEntry T), (vs.map Prod.fst).Nodup →
    ∀ p q : Nat × VEntry T, p ∈ vs → q ∈ vs → p.1 = q.1 → p = q := by
  intro vs
  induction vs with
  | nil => intro _ p q hp; simp at hp
  | cons a rest ih =>
    intro hnd p q hp hq heq
    simp only [List.map_cons, List.nodup_cons] at hnd
    rcases List.mem_cons.mp hp with rfl | hp2
    · rcases List.mem_cons.mp hq with rfl | hq2
      · rfl
      · exfalso
        apply hnd.1
        rw [heq]
        exact List.mem_map_of_mem Prod.fst hq2
    · rcases List.mem_cons.mp hq with rfl | hq2
      · exfalso
        apply hnd.1
        rw [← heq]
        exact List.mem_map_of_mem Prod.fst hp2
      · exact ih hnd.2 p q hp2 hq2 heq

theorem getValue_append_at_top {T : Type} (k : Nat)
    (vs : List (Nat × VEntry T)) (e : VEntry T) (v : Nat)
    (hk : ∀ p ∈ vs, p.1 < k) (hv : k ≤ v) :
    getValue ⟨k, vs ++ [(k, e)]⟩ v = if e.deleted then none else e.value := by
  simp only [getValue]
  rw [predEntry_append_gt vs k e v hk hv]

theorem getValue_append_fut {T : Type} (a b : Nat)
    (vs : List (Nat × VEntry T)) (k : Nat) (e : VEntry T) (v : Nat)
    (hv : v < k) :
    getValue ⟨a, vs ++ [(k, e)]⟩ v = getValue ⟨b, vs⟩ v := by
  simp only [getValue]
  rw [predEntry_append_lt vs k e v hv]

/-! ## MVCC claim theorems -/

/-- C2: `compareAndSwap(expectedVersion, newValue)` succeeds — allocating
a fresh version, storing `newValue` under it and returning that version —
exactly when the store's current version equals `expectedVersion`; on
mismatch it returns the sentinel 0 and leaves the version counter and the
version map unchanged. -/
theorem C2_compareAndSwap_correct (T : Type) (s : MvccState T)
    (expectedVersion : Nat) (newValue : T) (hwf : WF s)
    (hov : s.currentVersion + 1 < UINT64_MOD) :
    ((compareAndSwap s expectedVersion (some newValue)).1 ≠ 0 ↔
        s.currentVersion = expectedVersion) ∧
    (s.currentVersion = expectedVersion →
        (compareAndSwap s expectedVersion (some newValue)).1
            = s.currentVersion + 1 ∧
        (compareAndSwap s expectedVersion (some newValue)).2.currentVersion
            = s.currentVersion + 1 ∧
        getValue (compareAndSwap s expectedVersion (some newValue)).2
            (s.currentVersion + 1) = some newValue ∧
        (∀ p ∈ s.versions, p.1 ≠ s.currentVersion + 1)) ∧
    (s.currentVersion ≠ expectedVersion →
        compareAndSwap s expectedVersion (some newValue) = (0, s)) := by
  obtain ⟨hlt, hkeys, hnd⟩ := hwf
  by_cases he : s.currentVersion = expectedVersion
  · have hne : ¬ s.currentVersion ≠ expectedVersion := not_not_intro he
    have hnv : nextVersion s = s.currentVersion + 1 := Nat.mod_eq_of_lt hov
    have hins : mapInsert s.versions (s.currentVersion + 1)
          ⟨s.currentVersion + 1, some newValue, false⟩
        = s.versions ++ [(s.currentVersion + 1,
            ⟨s.currentVersion + 1, some newValue, false⟩)] :=
      mapInsert_of_not_mem _ _ _ (fun p hp => by have := hkeys p hp; omega)
    have hcas : compareAndSwap s expectedVersion (some newValue)
        = (s.currentVersion + 1,
           ⟨s.currentVersion + 1, s.versions ++ [(s.currentVersion + 1,
             ⟨s.currentVersion + 1, some newValue, false⟩)]⟩) := by
      simp only [compareAndSwap, if_neg hne, hnv, hins]
    rw [hcas]
    refine ⟨iff_of_true (Nat.succ_ne_zero _) he,
      fun _ => ⟨rfl, rfl, ?_, fun p hp => by have := hkeys p hp; omega⟩,
      fun hne2 => absurd he hne2⟩
    exact getValue_append_at_top (s.currentVersion + 1) s.versions _ _
      (fun p hp => by have := hkeys p hp; omega) (le_refl _)
  · have hcas : compareAndSwap s expectedVersion (some newValue) = (0, s) := by
      simp only [compareAndSwap, if_pos he]
    rw [hcas]
    exact ⟨iff_of_false (fun h => h rfl) he, fun h2 => absurd h2 he,
      fun _ => rfl⟩

/-- Witness for C2: on a one-entry store at version 1, a CAS expecting
version 0 fails with the sentinel and changes nothing. -/
theorem C2_compareAndSwap_correct_witness :
    compareAndSwap (⟨1, [(1, ⟨1, some 5, false⟩)]⟩ : MvccState Nat) 0
        (some 7)
      = (0, ⟨1, [(1, ⟨1, some 5, false⟩)]⟩) :=
  (C2_compareAndSwap_correct Nat ⟨1, [(1, ⟨1, some 5, false⟩)]⟩ 0 7
    (by decide) (by decide)).2.2 (by decide)

/-- C3: `getValue(v)` returns the value of the entry with the greatest
stored version at most `v` (nothing when that entry is a deletion
marker), returns nothing when no entry has version at most `v`, and
after `deleteValue()` every read at or above the allocated deletion
marker returns nothing. -/
theorem C3_getValue_predecessor (T : Type) (s : MvccState T) (v : Nat)
    (hwf : WF s) (hov : s.currentVersion + 1 < UINT64_MOD) :
    (∀ p, IsPredecessorEntry s.versions v p →
        getValue s v = if p.2.deleted then none else p.2.value) ∧
    ((∀ p ∈ s.versions, ¬ p.1 ≤ v) → getValue s v = none) ∧
    (∀ w, (deleteValue s).1 ≤ w → getValue (deleteValue s).2 w = none) := by
  obtain ⟨hlt, hkeys, hnd⟩ := hwf
  refine ⟨?_, ?_, ?_⟩
  · rintro p ⟨hm, hle, hmax⟩
    obtain ⟨q, hq⟩ := predEntry_isSome_of_mem s.versions v p hm hle
    obtain ⟨hqm, hqle⟩ := predEntry_mem s.versions v q hq
    have h1 : p.1 ≤ q.1 := predEntry_max s.versions v q hq p hm hle
    have h2 : q.1 ≤ p.1 := hmax q hqm hqle
    have heq : q = p := nodupKeys_eq s.versions hnd q p hqm hm (by omega)
    subst heq
    simp only [getValue, hq]
  · intro h
    cases hc : predEntry s.versions v with
    | none => simp only [getValue, hc]
    | some q =>
      obtain ⟨hqm, hqle⟩ := predEntry_mem s.versions v q hc
      exact absurd hqle (h q hqm)
  · intro w hw
    have hnv : nextVersion s = s.currentVersion + 1 := Nat.mod_eq_of_lt hov
    have hins : mapInsert s.versions (s.currentVersion + 1)
          ⟨s.currentVersion + 1, none, true⟩
        = s.versions ++ [(s.currentVersion + 1,
            ⟨s.currentVersion + 1, none, true⟩)] :=
      mapInsert_of_not_mem _ _ _ (fun p hp => by have := hkeys p hp; omega)
    have hdel : deleteValue s
        = (s.currentVersion + 1,
           ⟨s.currentVersion + 1, s.versions ++ [(s.currentVersion + 1,
             ⟨s.currentVersion + 1, none, true⟩)]⟩) := by
      simp only [deleteValue, hnv, hins]
    rw [hdel] at hw ⊢
    exact getValue_append_at_top (s.currentVersion + 1) s.versions _ w
      (fun p hp => by have := hkeys p hp; omega) hw

/-- Witness for C3: deleting on a one-entry store makes a read at a
version above the marker return nothing. -/
theorem C3_getValue_predecessor_witness :
    getValue
        (deleteValue (⟨1, [(1, ⟨1, some 5, false⟩)]⟩ : MvccState Nat)).2 3
      = none :=
  (C3_getValue_predecessor Nat ⟨1, [(1, ⟨1, some 5, false⟩)]⟩ 0
    (by decide) (by decide)).2.2 3 (by decide)

/-- C4: a transaction begun when the store's current version is `V`
reads the value as of `V` even after another writer commits a later
version (repeatable read), and its commit fails with a conflict, writing
nothing, whenever the store's current version is no longer `V` at commit
time — which is the case after the writer's `putValue`. -/
theorem C4_transaction_isolation (T : Type) (s : MvccState T) (x : Option T)
    (pending : T) (hwf : WF s) (hov : s.currentVersion + 1 < UINT64_MOD) :
    txnRead (txnBegin s) (putValue s x).2 = getValue s s.currentVersion ∧
    (putValue s x).2.currentVersion ≠ (txnBegin s).startVersion ∧
    (∀ s2 : MvccState T, s2.currentVersion ≠ (txnBegin s).startVersion →
        (txnCommit (txnWrite (txnBegin s) pending) s2).1 = false ∧
        (txnCommit (txnWrite (txnBegin s) pending) s2).2.2 = s2) := by
  obtain ⟨hlt, hkeys, hnd⟩ := hwf
  have hnv : nextVersion s = s.currentVersion + 1 := Nat.mod_eq_of_lt hov
  have hins : mapInsert s.versions (s.currentVersion + 1)
        ⟨s.currentVersion + 1, x, false⟩
      = s.versions ++ [(s.currentVersion + 1,
          ⟨s.currentVersion + 1, x, false⟩)] :=
    mapInsert_of_not_mem _ _ _ (fun p hp => by have := hkeys p hp; omega)
  have hput : putValue s x
      = (s.currentVersion + 1,
         ⟨s.currentVersion + 1, s.versions ++ [(s.currentVersion + 1,
           ⟨s.currentVersion + 1, x, false⟩)]⟩) := by
    simp only [putValue, hnv, hins]
  refine ⟨?_, ?_, ?_⟩
  · rw [hput]
    exact getValue_append_fut (s.currentVersion + 1) s.currentVersion
      s.versions (s.currentVersion + 1) ⟨s.currentVersion + 1, x, false⟩
      s.currentVersion (by omega)
  · rw [hput]
    show s.currentVersion + 1 ≠ s.currentVersion
    omega
  · intro s2 hne2
    have h5 : s2.currentVersion ≠ s.currentVersion := hne2
    have hcas : compareAndSwap s2 s.currentVersion (some pending)
        = (0, s2) := by
      simp only [compareAndSwap, if_pos h5]
    constructor <;> simp [txnCommit, txnWrite, txnBegin, hcas]

/-- Witness for C4: committing a transaction begun at version 1 against a
store that has moved to version 2 fails and leaves the store unchanged. -/
theorem C4_transaction_isolation_witness :
    (txnCommit
        (txnWrite (txnBegin (⟨1, [(1, ⟨1, some 5, false⟩)]⟩ : MvccState Nat)) 9)
        ⟨2, [(1, ⟨1, some 5, false⟩), (2, ⟨2, some 6, false⟩)]⟩).1 = false ∧
    (txnCommit
        (txnWrite (txnBegin (⟨1, [(1, ⟨1, some 5, false⟩)]⟩ : MvccState Nat)) 9)
        ⟨2, [(1, ⟨1, some 5, false⟩), (2, ⟨2, some 6, false⟩)]⟩).2.2
      = ⟨2, [(1, ⟨1, some 5, false⟩), (2, ⟨2, some 6, false⟩)]⟩ :=
  (C4_transaction_isolation Nat ⟨1, [(1, ⟨1, some 5, false⟩)]⟩ (some 6) 9
    (by decide) (by decide)).2.2
    ⟨2, [(1, ⟨1, some 5, false⟩), (2, ⟨2, some 6, false⟩)]⟩ (by decide)

/-- C9: every version allocated by `putValue`, `updateValue`,
`deleteValue`, or a successful `compareAndSwap` is at least 1 (the
counter starts at 0 and is pre-incremented), so the sentinel 0 returned
by `compareAndSwap` on conflict cannot collide with an allocated
version. -/
theorem C9_version_sentinel (T : Type) (s : MvccState T) (x : Option T)
    (updateFn : Option T → Option T) (expectedVersion : Nat)
    (hov : s.currentVersion + 1 < UINT64_MOD) :
    1 ≤ (putValue s x).1 ∧
    1 ≤ (updateValue s updateFn).1 ∧
    1 ≤ (deleteValue s).1 ∧
    (s.currentVersion = expectedVersion →
        1 ≤ (compareAndSwap s expectedVersion x).1) ∧
    (s.currentVersion ≠ expectedVersion →
        (compareAndSwap s expectedVersion x).1 = 0) ∧
    (mvccInit T).currentVersion = 0 := by
  have hnv : nextVersion s = s.currentVersion + 1 := Nat.mod_eq_of_lt hov
  refine ⟨?_, ?_, ?_, fun he => ?_, fun hne => ?_, rfl⟩
  · show 1 ≤ nextVersion s
    omega
  · show 1 ≤ nextVersion s
    omega
  · show 1 ≤ nextVersion s
    omega
  · have hne : ¬ s.currentVersion ≠ expectedVersion := not_not_intro he
    have hcas : (compareAndSwap s expectedVersion x).1 = nextVersion s := by
      simp only [compareAndSwap, if_neg hne]
    rw [hcas]
    omega
  · have hcas : compareAndSwap s expectedVersion x = (0, s) := by
      simp only [compareAndSwap, if_pos hne]
    rw [hcas]

/-- Witness for C9: the first putValue allocates a version that is at
least 1. -/
theorem C9_version_sentinel_witness :
    1 ≤ (putValue (mvccInit Nat) (some 7)).1 :=
  (C9_version_sentinel Nat (mvccInit Nat) (some 7) (fun o => o) 0
    (by decide)).1

/-- C10: `clear()` erases all versions and resets the counter to 0, the
next `putValue` then returns version 1 again (reusing version numbers,
so strict monotonicity only holds between clears), and a snapshot taken
before the clear reads post-clear data at its old version number. -/
theorem C10_clear_reuses_versions (T : Type) (s : MvccState T)
    (x : Option T) (val : T) (hv : 1 ≤ s.currentVersion) :
    (mvccClear s).currentVersion = 0 ∧
    (mvccClear s).versions = [] ∧
    (putValue (mvccClear s) x).1 = 1 ∧
    Snapshot.readFrom ⟨s.currentVersion⟩
        (putValue (mvccClear s) (some val)).2
      = some val := by
  have h1 : nextVersion (⟨0, []⟩ : MvccState T) = 1 := by
    show (0 + 1) % UINT64_MOD = 1
    norm_num [UINT64_MOD]
  refine ⟨rfl, rfl, ?_, ?_⟩
  · show nextVersion (mvccClear s) = 1
    exact h1
  · have hput2 : putValue (mvccClear s) (some val)
        = (1, ⟨1, [(1, ⟨1, some val, false⟩)]⟩) := by
      simp only [putValue, mvccClear, h1, mapInsert]
    show getValue (putValue (mvccClear s) (some val)).2 s.currentVersion
      = some val
    rw [hput2]
    exact getValue_append_at_top 1 [] ⟨1, some val, false⟩ s.currentVersion
      (by simp) hv

/-- Witness for C10: snapshot at version 1 taken before a clear reads the
value written after the clear. -/
theorem C10_clear_reuses_versions_witness :
    Snapshot.readFrom
        ⟨(⟨1, [(1, ⟨1, some 5, false⟩)]⟩ : MvccState Nat).currentVersion⟩
        (putValue
          (mvccClear (⟨1, [(1, ⟨1, some 5, false⟩)]⟩ : MvccState Nat))
          (some 9)).2
      = some 9 :=
  (C10_clear_reuses_versions Nat ⟨1, [(1, ⟨1, some 5, false⟩)]⟩ (some 9) 9
    (by decide)).2.2.2

/-- C8 counterexample: on the store obtained by `putValue 7` then
`deleteValue()` the current version is 2, yet `getValue(2)` returns
nothing although the latest non-deleted value stored at or before
version 2 is 7 — so a read at or above the current version does not
return the latest non-deleted value. -/
theorem C8_counterexample :
    ((deleteValue (putValue (mvccInit Nat) (some 7)).2).2.currentVersion
        = 2) ∧
    2 ≤ (deleteValue (putValue (mvccInit Nat) (some 7)).2).2.currentVersion ∧
    getValue (deleteValue (putValue (mvccInit Nat) (some 7)).2).2 2
      = none ∧
    latestNonDeleted
        (deleteValue (putValue (mvccInit Nat) (some 7)).2).2.versions 2
      = some 7 := by
  decide

/-- C8 (amended): versions returned by successive `putValue` calls
strictly increase and the first `putValue` on a fresh store returns 1;
a read at any version at or above the current version coincides with a
read at the current version, and immediately after a `putValue` such a
read returns the value just written.  (The original claim promised the
latest non-deleted value for every read at or above `currentVersion`,
which fails when the most recent entry is a deletion marker.) -/
theorem C8_put_monotonic (T : Type) (s : MvccState T) (x y : T)
    (hwf : WF s) (hov : s.currentVersion + 2 < UINT64_MOD) :
    (putValue (mvccInit T) (some x)).1 = 1 ∧
    (putValue s (some x)).1 = s.currentVersion + 1 ∧
    s.currentVersion < (putValue s (some x)).1 ∧
    (putValue s (some x)).1 < (putValue (putValue s (some x)).2 (some y)).1 ∧
    (∀ v, s.currentVersion ≤ v → getValue s v = getValue s s.currentVersion) ∧
    (∀ v, (putValue s (some x)).2.currentVersion ≤ v →
        getValue (putValue s (some x)).2 v = some x) := by
  obtain ⟨hlt, hkeys, hnd⟩ := hwf
  have hnv : nextVersion s = s.currentVersion + 1 :=
    Nat.mod_eq_of_lt (by omega)
  have hins : mapInsert s.versions (s.currentVersion + 1)
        ⟨s.currentVersion + 1, some x, false⟩
      = s.versions ++ [(s.currentVersion + 1,
          ⟨s.currentVersion + 1, some x, false⟩)] :=
    mapInsert_of_not_mem _ _ _ (fun p hp => by have := hkeys p hp; omega)
  have hput : putValue s (some x)
      = (s.currentVersion + 1,
         ⟨s.currentVersion + 1, s.versions ++ [(s.currentVersion + 1,
           ⟨s.currentVersion + 1, some x, false⟩)]⟩) := by
    simp only [putValue, hnv, hins]
  refine ⟨?_, ?_, ?_, ?_, ?_, ?_⟩
  · show nextVersion (mvccInit T) = 1
    show (0 + 1) % UINT64_MOD = 1
    norm_num [UINT64_MOD]
  · rw [hput]
  · rw [hput]
    show s.currentVersion < s.currentVersion + 1
    omega
  · rw [hput]
    show s.currentVersion + 1 < (s.currentVersion + 1 + 1) % UINT64_MOD
    rw [Nat.mod_eq_of_lt (by omega)]
    omega
  · intro v hv5
    simp only [getValue]
    rw [predEntry_high s.versions s.currentVersion v hkeys hv5]
  · intro v hv6
    rw [hput] at hv6 ⊢
    have hv7 : s.currentVersion + 1 ≤ v := hv6
    exact getValue_append_at_top (s.currentVersion + 1) s.versions _ v
      (fun p hp => by have := hkeys p hp; omega) hv7

/-- Witness for C8 (amended): on a one-entry store, a read far above the
version allocated by a `putValue` returns the value just written. -/
theorem C8_put_monotonic_witness :
    getValue
        (putValue (⟨1, [(1, ⟨1, some 5, false⟩)]⟩ : MvccState Nat)
          (some 7)).2 9
      = some 7 :=
  (C8_put_monotonic Nat ⟨1, [(1, ⟨1, some 5, false⟩)]⟩ 7 8 (by decide)
    (by decide)).2.2.2.2.2 9 (by decide)

end GalayUtils
